import Mathlib

set_option maxHeartbeats 1000000

namespace FileCounter

/-- A raw directory entry as produced by `fs::read_dir`: the entry's path and its
file name (`none` models a name that cannot be decoded to a `String`, the
`into_string()` failure case of `main.rs`). -/
structure RawEntry (n : ℕ) where
  path : Fin n
  name : Option String
deriving DecidableEq

/-- Shallow model of the filesystem seen by `main.rs`.  Paths are drawn from the
finite type `Fin n` (a session only ever touches finitely many paths).
`readDir d = none` models `fs::read_dir` failing on `d`; an element `none` of
the returned list models an entry whose `entry_result` is `Err`.
`canonicalize` models `Path::canonicalize` (`none` = failure), `isFile` and
`isDir` model `Path::is_file` / `Path::is_dir` (which follow symlinks), and
`parent` models `Path::parent`. -/
structure FS (n : ℕ) where
  canonicalize : Fin n → Option (Fin n)
  readDir : Fin n → Option (List (Option (RawEntry n)))
  isFile : Fin n → Bool
  isDir : Fin n → Bool
  parent : Fin n → Option (Fin n)

/-- The subdirectory paths pushed onto the work stack when `count_files` visits
the canonical directory `c`: the entries of `read_dir(c)` that read successfully,
are not regular files, and are directories (`else if path.is_dir()`), in entry
order.  An unreadable directory contributes no children. -/
def childDirPaths {n : ℕ} (fs : FS n) (c : Fin n) : List (Fin n) :=
  match fs.readDir c with
  | none => []
  | some es =>
      ((es.filterMap id).filter (fun r => !fs.isFile r.path && fs.isDir r.path)).map
        (fun r => r.path)

/-- The number of regular-file entries counted when `count_files` visits the
canonical directory `c` (`if path.is_file() \x7b count += 1 \x7d`); an unreadable
directory contributes zero. -/
def dirFileCount {n : ℕ} (fs : FS n) (c : Fin n) : ℕ :=
  match fs.readDir c with
  | none => 0
  | some es => (es.filterMap id).countP (fun r => fs.isFile r.path)

/-- The `while let Some(current_dir) = dirs_to_visit.pop()` loop of
`count_files` in `main.rs`.  The head of `stack` is the top of the Rust `Vec`
stack, so child directories (pushed in entry order, popped last-in-first-out)
are prepended reversed.  A path whose canonicalization fails is skipped; a
canonical directory already in `visited` is skipped; otherwise it is inserted
into `visited`, its regular-file entries are added to `count`, and its child
directories are pushed. -/
def countLoop {n : ℕ} (fs : FS n) (stack : List (Fin n)) (visited : Finset (Fin n))
    (count : ℕ) : ℕ :=
  match stack with
  | [] => count
  | d :: rest =>
    match fs.canonicalize d with
    | none => countLoop fs rest visited count
    | some c =>
      if c ∈ visited then countLoop fs rest visited count
      else
        countLoop fs ((childDirPaths fs c).reverse ++ rest) (insert c visited)
          (count + dirFileCount fs c)
termination_by (Fintype.card (Fin n) - visited.card, stack.length)
decreasing_by
  all_goals
    first
    | exact Prod.Lex.right _ (Nat.lt_succ_self _)
    | · apply Prod.Lex.left
        have h1 : (insert c visited).card = visited.card + 1 :=
          Finset.card_insert_of_not_mem (by assumption)
        have h2 : (insert c visited).card ≤ Fintype.card (Fin n) := Finset.card_le_univ _
        omega

/-- `count_files` from `main.rs`: runs the traversal loop from `dir` with an
empty visited set and zero count, and — the body having swallowed every
filesystem error — always returns `Ok(count)`. -/
def count_files {n : ℕ} (fs : FS n) (dir : Fin n) : Except Unit ℕ :=
  Except.ok (countLoop fs [dir] ∅ 0)

/-- The final visited set produced by the `count_files` loop: same recursion as
`countLoop`, returning `visited` at exhaustion of the stack. -/
def loopVisited {n : ℕ} (fs : FS n) (stack : List (Fin n)) (visited : Finset (Fin n)) :
    Finset (Fin n) :=
  match stack with
  | [] => visited
  | d :: rest =>
    match fs.canonicalize d with
    | none => loopVisited fs rest visited
    | some c =>
      if c ∈ visited then loopVisited fs rest visited
      else loopVisited fs ((childDirPaths fs c).reverse ++ rest) (insert c visited)
termination_by (Fintype.card (Fin n) - visited.card, stack.length)
decreasing_by
  all_goals
    first
    | exact Prod.Lex.right _ (Nat.lt_succ_self _)
    | · apply Prod.Lex.left
        have h1 : (insert c visited).card = visited.card + 1 :=
          Finset.card_insert_of_not_mem (by assumption)
        have h2 : (insert c visited).card ≤ Fintype.card (Fin n) := Finset.card_le_univ _
        omega

/-- The number of loop iterations (stack pops) performed by the `count_files`
loop: same recursion as `countLoop`, counting one per pop. -/
def loopSteps {n : ℕ} (fs : FS n) (stack : List (Fin n)) (visited : Finset (Fin n)) : ℕ :=
  match stack with
  | [] => 0
  | d :: rest =>
    match fs.canonicalize d with
    | none => loopSteps fs rest visited + 1
    | some c =>
      if c ∈ visited then loopSteps fs rest visited + 1
      else loopSteps fs ((childDirPaths fs c).reverse ++ rest) (insert c visited) + 1
termination_by (Fintype.card (Fin n) - visited.card, stack.length)
decreasing_by
  all_goals
    first
    | exact Prod.Lex.right _ (Nat.lt_succ_self _)
    | · apply Prod.Lex.left
        have h1 : (insert c visited).card = visited.card + 1 :=
          Finset.card_insert_of_not_mem (by assumption)
        have h2 : (insert c visited).card ≤ Fintype.card (Fin n) := Finset.card_le_univ _
        omega

/-- One canonical-directory edge: from the canonical directory `c` the traversal
can step to `c'` when some child directory path pushed while visiting `c`
canonicalizes to `c'`. -/
def canonEdge {n : ℕ} (fs : FS n) (c c' : Fin n) : Prop :=
  ∃ q ∈ childDirPaths fs c, fs.canonicalize q = some c'

/-- Spec-side reachability: the canonical directory `x` is reachable from the
raw path `p` when `p` canonicalizes to some `c₀` and `x` is reachable from `c₀`
along canonical-directory edges.  All symlink aliases of one real directory are
identified by canonicalization, so this is reachability between real
directories. -/
def Reach {n : ℕ} (fs : FS n) (p : Fin n) (x : Fin n) : Prop :=
  ∃ c₀, fs.canonicalize p = some c₀ ∧ Relation.ReflTransGen (canonEdge fs) c₀ x

theorem visited_subset_loopVisited {n : ℕ} (fs : FS n) (stack : List (Fin n))
    (visited : Finset (Fin n)) : visited ⊆ loopVisited fs stack visited := by
  induction stack, visited using loopVisited.induct fs with
  | case1 visited => simp [loopVisited]
  | case2 visited d rest h ih => simpa [loopVisited, h] using ih
  | case3 visited d rest c h hc ih => simpa [loopVisited, h, hc] using ih
  | case4 visited d rest c h hc ih =>
      simp only [loopVisited, h, if_neg hc]
      exact (Finset.subset_insert _ _).trans ih

theorem canon_mem_loopVisited {n : ℕ} (fs : FS n) (stack : List (Fin n))
    (visited : Finset (Fin n)) :
    ∀ p ∈ stack, ∀ c, fs.canonicalize p = some c → c ∈ loopVisited fs stack visited := by
  induction stack, visited using loopVisited.induct fs with
  | case1 visited => intro p hp; simp at hp
  | case2 visited d rest h ih =>
      intro p hp c hpc
      rcases List.mem_cons.mp hp with rfl | hp
      · rw [h] at hpc; exact absurd hpc (by simp)
      · simpa [loopVisited, h] using ih p hp c hpc
  | case3 visited d rest c h hc ih =>
      intro p hp c' hpc
      rcases List.mem_cons.mp hp with rfl | hp
      · rw [h] at hpc
        obtain rfl : c = c' := by simpa using hpc
        simp only [loopVisited, h, if_pos hc]
        exact visited_subset_loopVisited fs rest visited hc
      · simpa [loopVisited, h, hc] using ih p hp c' hpc
  | case4 visited d rest c h hc ih =>
      intro p hp c' hpc
      simp only [loopVisited, h, if_neg hc]
      rcases List.mem_cons.mp hp with rfl | hp
      · rw [h] at hpc
        obtain rfl : c = c' := by simpa using hpc
        exact visited_subset_loopVisited fs _ _ (Finset.mem_insert_self _ _)
      · exact ih p (List.mem_append_right _ hp) c' hpc

theorem loopVisited_closed {n : ℕ} (fs : FS n) (stack : List (Fin n))
    (visited : Finset (Fin n)) :
    ∀ x ∈ loopVisited fs stack visited, x ∉ visited →
      ∀ x', canonEdge fs x x' → x' ∈ loopVisited fs stack visited := by
  induction stack, visited using loopVisited.induct fs with
  | case1 visited =>
      intro x hx hnx
      simp only [loopVisited] at hx
      exact absurd hx hnx
  | case2 visited d rest h ih =>
      intro x hx hnx x' he
      simp only [loopVisited, h] at hx ⊢
      exact ih x hx hnx x' he
  | case3 visited d rest c h hc ih =>
      intro x hx hnx x' he
      simp only [loopVisited, h, if_pos hc] at hx ⊢
      exact ih x hx hnx x' he
  | case4 visited d rest c h hc ih =>
      intro x hx hnx x' he
      simp only [loopVisited, h, if_neg hc] at hx ⊢
      by_cases hxc : x = c
      · subst hxc
        obtain ⟨q, hq, hq'⟩ := he
        exact canon_mem_loopVisited fs _ _ q
          (List.mem_append_left _ (List.mem_reverse.mpr hq)) x' hq'
      · exact ih x hx (by simp [Finset.mem_insert, hxc, hnx]) x' he

theorem loopVisited_subset_reach {n : ℕ} (fs : FS n) (stack : List (Fin n))
    (visited : Finset (Fin n)) :
    ∀ x ∈ loopVisited fs stack visited, x ∈ visited ∨ ∃ p ∈ stack, Reach fs p x := by
  induction stack, visited using loopVisited.induct fs with
  | case1 visited =>
      intro x hx
      simp only [loopVisited] at hx
      exact Or.inl hx
  | case2 visited d rest h ih =>
      intro x hx
      simp only [loopVisited, h] at hx
      rcases ih x hx with hv | ⟨p, hp, hr⟩
      · exact Or.inl hv
      · exact Or.inr ⟨p, List.mem_cons_of_mem _ hp, hr⟩
  | case3 visited d rest c h hc ih =>
      intro x hx
      simp only [loopVisited, h, if_pos hc] at hx
      rcases ih x hx with hv | ⟨p, hp, hr⟩
      · exact Or.inl hv
      · exact Or.inr ⟨p, List.mem_cons_of_mem _ hp, hr⟩
  | case4 visited d rest c h hc ih =>
      intro x hx
      simp only [loopVisited, h, if_neg hc] at hx
      rcases ih x hx with hv | ⟨p, hp, hr⟩
      · rcases Finset.mem_insert.mp hv with rfl | hv
        · exact Or.inr ⟨d, List.mem_cons_self _ _, ⟨x, h, Relation.ReflTransGen.refl⟩⟩
        · exact Or.inl hv
      · rcases List.mem_append.mp hp with hp | hp
        · obtain ⟨c₁, hc₁, hrtg⟩ := hr
          exact Or.inr ⟨d, List.mem_cons_self _ _,
            ⟨c, h, Relation.ReflTransGen.head ⟨p, List.mem_reverse.mp hp, hc₁⟩ hrtg⟩⟩
        · exact Or.inr ⟨p, List.mem_cons_of_mem _ hp, hr⟩

theorem reach_mem_loopVisited {n : ℕ} (fs : FS n) (root x : Fin n)
    (hr : Reach fs root x) : x ∈ loopVisited fs [root] ∅ := by
  obtain ⟨c₀, hc₀, hrtg⟩ := hr
  induction hrtg with
  | refl => exact canon_mem_loopVisited fs [root] ∅ root (List.mem_singleton_self _) c₀ hc₀
  | tail hab hbc ih =>
      exact loopVisited_closed fs [root] ∅ _ ih (by simp) _ hbc

theorem mem_loopVisited_iff_reach {n : ℕ} (fs : FS n) (root x : Fin n) :
    x ∈ loopVisited fs [root] ∅ ↔ Reach fs root x := by
  constructor
  · intro hx
    rcases loopVisited_subset_reach fs [root] ∅ x hx with hv | ⟨p, hp, hr⟩
    · simp at hv
    · obtain rfl : p = root := by simpa using hp
      exact hr
  · exact reach_mem_loopVisited fs root x

instance reachDecidable {n : ℕ} (fs : FS n) (root x : Fin n) : Decidable (Reach fs root x) :=
  decidable_of_iff (x ∈ loopVisited fs [root] ∅) (mem_loopVisited_iff_reach fs root x)

theorem countLoop_eq_sum {n : ℕ} (fs : FS n) (stack : List (Fin n))
    (visited : Finset (Fin n)) (count : ℕ) :
    countLoop fs stack visited count =
      count + ∑ c ∈ loopVisited fs stack visited \ visited, dirFileCount fs c := by
  induction stack, visited, count using countLoop.induct fs with
  | case1 visited count => simp [countLoop, loopVisited]
  | case2 visited count d rest h ih => simpa [countLoop, loopVisited, h] using ih
  | case3 visited count d rest c h hc ih => simpa [countLoop, loopVisited, h, hc] using ih
  | case4 visited count d rest c h hc ih =>
      simp only [countLoop, loopVisited, h, if_neg hc]
      rw [ih]
      have hcV : c ∈ loopVisited fs ((childDirPaths fs c).reverse ++ rest) (insert c visited) :=
        visited_subset_loopVisited fs _ _ (Finset.mem_insert_self _ _)
      have hsplit :
          loopVisited fs ((childDirPaths fs c).reverse ++ rest) (insert c visited) \ visited =
            insert c (loopVisited fs ((childDirPaths fs c).reverse ++ rest) (insert c visited) \
              insert c visited) := by
        ext y
        simp only [Finset.mem_sdiff, Finset.mem_insert]
        constructor
        · rintro ⟨hy, hny⟩
          by_cases hyc : y = c
          · exact Or.inl hyc
          · exact Or.inr ⟨hy, by simp [hyc, hny]⟩
        · rintro (rfl | ⟨hy, hny⟩)
          · exact ⟨hcV, hc⟩
          · exact ⟨hy, fun hv => hny (Or.inr hv)⟩
      rw [hsplit, Finset.sum_insert (by simp)]
      ring

theorem loopSteps_le {n : ℕ} (fs : FS n) (stack : List (Fin n)) (visited : Finset (Fin n)) :
    loopSteps fs stack visited ≤
      stack.length + ∑ c ∈ Finset.univ \ visited, (childDirPaths fs c).length := by
  induction stack, visited using loopSteps.induct fs with
  | case1 visited => simp [loopSteps]
  | case2 visited d rest h ih =>
      simp only [loopSteps, h, List.length_cons]
      omega
  | case3 visited d rest c h hc ih =>
      simp only [loopSteps, h, if_pos hc, List.length_cons]
      omega
  | case4 visited d rest c h hc ih =>
      simp only [loopSteps, h, if_neg hc, List.length_cons]
      have hcmem : c ∈ Finset.univ \ visited := by simp [hc]
      have hsum : (childDirPaths fs c).length +
          ∑ x ∈ Finset.univ \ insert c visited, (childDirPaths fs x).length =
          ∑ x ∈ Finset.univ \ visited, (childDirPaths fs x).length := by
        have herase : Finset.univ \ insert c visited = (Finset.univ \ visited).erase c := by
          ext y
          simp only [Finset.mem_sdiff, Finset.mem_erase, Finset.mem_insert, Finset.mem_univ,
            true_and]
          tauto
        rw [herase]
        exact Finset.add_sum_erase (Finset.univ \ visited)
          (fun x => (childDirPaths fs x).length) hcmem
      have hlen : ((childDirPaths fs c).reverse ++ rest).length =
          (childDirPaths fs c).length + rest.length := by simp
      omega

/-- C1: `count_files(root)` returns, for every filesystem, exactly the sum over
the set of *distinct* canonical directories reachable from `root` of the number
of regular-file entries in each — i.e. it counts the files of each real
(canonical) directory exactly once, even when that directory is reachable
through several symlink paths (several raw paths canonicalizing to the same
canonical directory), so each real file is counted exactly once. -/
theorem count_files_counts_canonical_dirs_once {n : ℕ} (fs : FS n) (root : Fin n) :
    count_files fs root =
      Except.ok (∑ c ∈ Finset.univ.filter (fun c => Reach fs root c), dirFileCount fs c) := by
  have hset : loopVisited fs [root] ∅ = Finset.univ.filter (fun c => Reach fs root c) := by
    ext x
    simp [mem_loopVisited_iff_reach]
  unfold count_files
  rw [countLoop_eq_sum]
  simp [hset]

/-- C3: the `count_files` loop terminates on every directory graph, including
ones with symlink cycles: the number of loop iterations is bounded by one (for
the root) plus the total number of child-directory pushes any directory can
contribute, because each canonical directory enters the visited set at most
once; consequently `count_files` always returns a (finite) count. -/
theorem count_files_terminates {n : ℕ} (fs : FS n) (root : Fin n) :
    loopSteps fs [root] ∅ ≤ 1 + ∑ c ∈ Finset.univ, (childDirPaths fs c).length ∧
      ∃ k, count_files fs root = Except.ok k := by
  refine ⟨?_, _, rfl⟩
  have h := loopSteps_le fs [root] ∅
  rw [Finset.sdiff_empty] at h
  simpa using h

/-- Lexicographic comparison of character lists by code point, the order in
which Rust's `String::cmp` compares strings (UTF-8 byte order coincides with
code-point order). -/
def charsCmp : List Char → List Char → Ordering
  | [], [] => .eq
  | [], _ :: _ => .lt
  | _ :: _, [] => .gt
  | a :: as, b :: bs => (compare a.toNat b.toNat).then (charsCmp as bs)

/-- Rust's `String::cmp`, modelled on the underlying character list. -/
def strCmp (s t : String) : Ordering := charsCmp s.data t.data

theorem char_lt_iff_toNat_lt (a b : Char) : a < b ↔ a.toNat < b.toNat := by
  rw [Char.lt_def]; exact Iff.rfl

theorem char_eq_iff_toNat_eq (a b : Char) : a = b ↔ a.toNat = b.toNat := by
  constructor
  · rintro rfl; rfl
  · intro h
    exact Char.eq_of_val_eq (UInt32.toNat.inj h)

theorem chars_cons_lt_cons_iff (a b : Char) (as bs : List Char) :
    a :: as < b :: bs ↔ a < b ∨ (a = b ∧ as < bs) := by
  constructor
  · intro h
    cases h with
    | rel h => exact Or.inl h
    | cons h => exact Or.inr ⟨rfl, h⟩
  · rintro (h | ⟨rfl, h⟩)
    · exact List.Lex.rel h
    · exact List.Lex.cons h

theorem charsCmp_eq_eq (as bs : List Char) : charsCmp as bs = .eq ↔ as = bs := by
  induction as generalizing bs with
  | nil => cases bs <;> simp [charsCmp]
  | cons a as ih =>
      cases bs with
      | nil => simp [charsCmp]
      | cons b bs =>
          simp [charsCmp, Ordering.then_eq_eq, Nat.compare_eq_eq, ih,
            ← char_eq_iff_toNat_eq]

theorem charsCmp_eq_lt (as bs : List Char) : charsCmp as bs = .lt ↔ as < bs := by
  induction as generalizing bs with
  | nil =>
      cases bs with
      | nil => simp [charsCmp, lt_irrefl]
      | cons b bs => simp [charsCmp, List.nil_lt_cons]
  | cons a as ih =>
      cases bs with
      | nil =>
          simp only [charsCmp]
          constructor
          · intro h; exact absurd h (by simp)
          · intro h; exact absurd h (List.Lex.not_nil_right _ _)
      | cons b bs =>
          rw [charsCmp, Ordering.then_eq_lt, Nat.compare_eq_lt, Nat.compare_eq_eq,
            chars_cons_lt_cons_iff, char_lt_iff_toNat_lt, char_eq_iff_toNat_eq, ih]

theorem charsCmp_eq_gt (as bs : List Char) : charsCmp as bs = .gt ↔ bs < as := by
  constructor
  · intro h
    rcases lt_trichotomy as bs with h1 | h1 | h1
    · rw [← charsCmp_eq_lt] at h1; rw [h] at h1; exact absurd h1 (by simp)
    · rw [← charsCmp_eq_eq] at h1; rw [h] at h1; exact absurd h1 (by simp)
    · exact h1
  · intro h
    rcases hc : charsCmp as bs with _ | _ | _
    · exact absurd ((charsCmp_eq_lt as bs).mp hc) (lt_asymm h)
    · obtain rfl := (charsCmp_eq_eq as bs).mp hc
      exact absurd h (lt_irrefl _)
    · rfl

theorem strCmp_eq_eq (s t : String) : strCmp s t = .eq ↔ s = t := by
  rw [strCmp, charsCmp_eq_eq]
  exact ⟨fun h => String.ext h, fun h => by rw [h]⟩

theorem strCmp_eq_gt (s t : String) : strCmp s t = .gt ↔ t < s := by
  rw [strCmp, charsCmp_eq_gt, String.lt_iff_toList_lt]
  exact Iff.rfl

theorem strCmp_ne_gt (s t : String) : strCmp s t ≠ .gt ↔ s ≤ t := by
  rw [Ne, strCmp_eq_gt, not_lt]

/-- `DirEntry` from `main.rs`: one row of the listing. -/
structure DirEntry (n : ℕ) where
  name : String
  path : Fin n
  is_dir : Bool
  file_count : Option ℕ
deriving DecidableEq

/-- The comparator closure passed to `sort_by` in `refresh_items` and in the
main loop's re-sort (`main.rs` lines 202-218, 220-236, 367-383, 385-401);
all four copies are textually identical.  Directories before files; two
directories by known count descending then lowercased name ascending, a known
count before an unknown one; two files by lowercased name ascending. -/
def entryCmp {n : ℕ} (a b : DirEntry n) : Ordering :=
  match a.is_dir, b.is_dir with
  | true, true =>
    match a.file_count, b.file_count with
    | some a_count, some b_count =>
        (compare b_count a_count).then (strCmp a.name.toLower b.name.toLower)
    | some _, none => .lt
    | none, some _ => .gt
    | none, none => strCmp a.name.toLower b.name.toLower
  | false, false => strCmp a.name.toLower b.name.toLower
  | true, false => .lt
  | false, true => .gt

/-- `a` sorts no later than `b` under the comparator: the total preorder
induced by `entryCmp`. -/
def entryLe {n : ℕ} (a b : DirEntry n) : Prop := entryCmp a b ≠ .gt

instance entryLeDecidable {n : ℕ} : DecidableRel (@entryLe n) := fun a b => by
  unfold entryLe
  infer_instance

theorem Ordering_then_ne_gt (o₁ o₂ : Ordering) :
    o₁.then o₂ ≠ .gt ↔ o₁ = .lt ∨ (o₁ = .eq ∧ o₂ ≠ .gt) := by
  cases o₁ <;> cases o₂ <;> simp [Ordering.then]

theorem strLe_total (s t : String) : strCmp s t ≠ .gt ∨ strCmp t s ≠ .gt := by
  rw [strCmp_ne_gt, strCmp_ne_gt]
  exact le_total s t

theorem strLe_trans {s t u : String} (h1 : strCmp s t ≠ .gt) (h2 : strCmp t u ≠ .gt) :
    strCmp s u ≠ .gt := by
  rw [strCmp_ne_gt] at h1 h2 ⊢
  exact le_trans h1 h2

theorem entryLe_total {n : ℕ} (a b : DirEntry n) : entryLe a b ∨ entryLe b a := by
  obtain ⟨na, pa, da, ka⟩ := a
  obtain ⟨nb, pb, db, kb⟩ := b
  unfold entryLe entryCmp
  cases da <;> cases db
  · exact strLe_total _ _
  · exact Or.inr (by simp)
  · exact Or.inl (by simp)
  · rcases ka with _ | va <;> rcases kb with _ | vb
    · exact strLe_total _ _
    · exact Or.inr (by simp)
    · exact Or.inl (by simp)
    · show (compare vb va).then _ ≠ _ ∨ (compare va vb).then _ ≠ _
      rw [Ordering_then_ne_gt, Ordering_then_ne_gt, Nat.compare_eq_lt, Nat.compare_eq_eq,
        Nat.compare_eq_lt, Nat.compare_eq_eq]
      rcases lt_trichotomy va vb with h | h | h
      · exact Or.inr (Or.inl h)
      · rcases strLe_total (String.toLower na) (String.toLower nb) with h' | h'
        · exact Or.inl (Or.inr ⟨h.symm, h'⟩)
        · exact Or.inr (Or.inr ⟨h, h'⟩)
      · exact Or.inl (Or.inl h)

theorem entryLe_trans {n : ℕ} (a b c : DirEntry n) (hab : entryLe a b) (hbc : entryLe b c) :
    entryLe a c := by
  obtain ⟨na, pa, da, ka⟩ := a
  obtain ⟨nb, pb, db, kb⟩ := b
  obtain ⟨nc, pc, dc, kc⟩ := c
  unfold entryLe entryCmp at hab hbc ⊢
  cases da <;> cases db <;> cases dc
  · exact strLe_trans hab hbc
  · exact absurd rfl hbc
  · exact absurd rfl hab
  · exact absurd rfl hab
  · simp
  · exact absurd rfl hbc
  · simp
  · rcases ka with _ | va <;> rcases kc with _ | vc
    · rcases kb with _ | vb
      · exact strLe_trans hab hbc
      · exact absurd rfl hab
    · rcases kb with _ | vb
      · exact absurd rfl hbc
      · exact absurd rfl hab
    · simp
    · rcases kb with _ | vb
      · exact absurd rfl hbc
      · show (compare vc va).then _ ≠ _
        revert hab hbc
        show (compare vb va).then _ ≠ _ → (compare vc vb).then _ ≠ _ → _
        rw [Ordering_then_ne_gt, Ordering_then_ne_gt, Ordering_then_ne_gt,
          Nat.compare_eq_lt, Nat.compare_eq_eq, Nat.compare_eq_lt, Nat.compare_eq_eq,
          Nat.compare_eq_lt, Nat.compare_eq_eq]
        rintro (h1 | ⟨h1, h2⟩) (h3 | ⟨h3, h4⟩)
        · exact Or.inl (by omega)
        · exact Or.inl (by omega)
        · exact Or.inl (by omega)
        · exact Or.inr ⟨by omega, strLe_trans h2 h4⟩

instance entryLeIsTotal {n : ℕ} : IsTotal (DirEntry n) entryLe := ⟨entryLe_total⟩

instance entryLeIsTrans {n : ℕ} : IsTrans (DirEntry n) entryLe := ⟨entryLe_trans⟩

/-- The effect of `rest.sort_by(comparator)` / `self.items.sort_by(comparator)`
on a listing: Rust's `sort_by` is a stable sort, and for the total preorder
`entryLe` the stably sorted permutation of a list is unique and computed by
insertion sort (`orderedInsert` keeps an earlier element in front of a later
element it ties with). -/
def sortEntries {n : ℕ} (l : List (DirEntry n)) : List (DirEntry n) :=
  List.insertionSort entryLe l

/-- The sort block at the end of `refresh_items` (`main.rs` lines 199-237) and
the identical re-sort block of the main loop (lines 362-404): when a parent
("back") row is present and there is more than one row, `split_at_mut(1)` pins
the first row and sorts the rest; otherwise the whole listing is sorted. -/
def applySort {n : ℕ} (include_back : Bool) (items : List (DirEntry n)) :
    List (DirEntry n) :=
  if include_back && decide (items.length > 1) then
    match items with
    | [] => []
    | x :: xs => x :: sortEntries xs
  else sortEntries items

/-- The sort policy as the spec words it: directories before files; among two
directories known file count descending, a known count before an unknown one,
case-insensitive name ascending as the tie-break; among two files,
case-insensitive name ascending. -/
def specLe {n : ℕ} (a b : DirEntry n) : Prop :=
  if a.is_dir then
    if b.is_dir then
      match a.file_count, b.file_count with
      | some ca, some cb => cb < ca ∨ (ca = cb ∧ a.name.toLower ≤ b.name.toLower)
      | some _, none => True
      | none, some _ => False
      | none, none => a.name.toLower ≤ b.name.toLower
    else True
  else
    if b.is_dir then False
    else a.name.toLower ≤ b.name.toLower

instance specLeDecidable {n : ℕ} (a b : DirEntry n) : Decidable (specLe a b) := by
  unfold specLe
  split
  · split
    · rcases a.file_count with _ | ca <;> rcases b.file_count with _ | cb <;>
        simp only <;> infer_instance
    · infer_instance
  · split <;> infer_instance

theorem entryLe_iff_specLe {n : ℕ} (a b : DirEntry n) : entryLe a b ↔ specLe a b := by
  obtain ⟨na, pa, da, ka⟩ := a
  obtain ⟨nb, pb, db, kb⟩ := b
  unfold entryLe entryCmp specLe
  cases da <;> cases db
  · exact strCmp_ne_gt _ _
  · simp
  · simp
  · rcases ka with _ | va <;> rcases kb with _ | vb
    · exact strCmp_ne_gt _ _
    · simp
    · simp
    · show (compare vb va).then _ ≠ _ ↔ _
      rw [Ordering_then_ne_gt, Nat.compare_eq_lt, Nat.compare_eq_eq, strCmp_ne_gt]
      constructor
      · rintro (h | ⟨h, h'⟩)
        · exact Or.inl h
        · exact Or.inr ⟨h.symm, h'⟩
      · rintro (h | ⟨h, h'⟩)
        · exact Or.inl h
        · exact Or.inr ⟨h.symm, h'⟩

theorem sortEntries_sorted {n : ℕ} (l : List (DirEntry n)) :
    (sortEntries l).Pairwise specLe := by
  have h := List.sorted_insertionSort entryLe l
  rw [List.Sorted] at h
  exact h.imp (fun hab => (entryLe_iff_specLe _ _).mp hab)

theorem sortEntries_of_sorted {n : ℕ} (l : List (DirEntry n)) (h : l.Pairwise specLe) :
    sortEntries l = l :=
  List.Sorted.insertionSort_eq (List.Pairwise.imp (fun hab =>
    (entryLe_iff_specLe _ _).mpr hab) h)

/-- The navigation-relevant state of `App` from `main.rs`.  The spinner fields,
the channel endpoints and the thread pool are concurrency plumbing with no
navigation semantics; the shared `DashMap` cache is passed to each operation as
the snapshot `cache : Fin n → Option ℕ` it reads during that operation
(worker inserts land between operations). -/
structure App (n : ℕ) where
  current_dir : Fin n
  home_dir : Fin n
  current_dir_count : Option ℕ
  items : List (DirEntry n)
  selected : Option ℕ
deriving DecidableEq

/-- `entries.collect::<Result<Vec<_>, _>>()` from `refresh_items`: the list of
successfully read entries, failing as soon as any entry failed to read. -/
def collectEntries {n : ℕ} : List (Option (RawEntry n)) → Except Unit (List (RawEntry n))
  | [] => .ok []
  | none :: _ => .error ()
  | some r :: rest => (collectEntries rest).map (fun l => r :: l)

/-- The fixed label of the synthesized parent row. -/
def backLabel : String := ".. (Back to parent directory)"

/-- A listing row built from one raw `read_dir` entry in `refresh_items`: the
decoded name (or the `"Unknown"` placeholder), the entry path, its directory
classification, and the cached count — looked up only for directories. -/
def childEntry {n : ℕ} (fs : FS n) (cache : Fin n → Option ℕ) (r : RawEntry n) : DirEntry n :=
  { name := r.name.getD "Unknown"
    path := r.path
    is_dir := fs.isDir r.path
    file_count := if fs.isDir r.path then cache r.path else none }

/-- `App::refresh_items` from `main.rs`.  Returns the updated state together
with the list of paths submitted to the worker pool, in submission order
(current directory on a miss, then the parent on a miss, then the per-item
dispatch loop over the freshly built listing).  `.error ()` models the early
`return Err(..)` produced by the `?` on
`entries.collect::<Result<Vec<_>, _>>()`; a failure of `read_dir` itself is
replaced by the empty listing. -/
def refresh_items {n : ℕ} (fs : FS n) (cache : Fin n → Option ℕ) (app : App n) :
    Except Unit (App n × List (Fin n)) :=
  let previous_selection := app.selected.getD 0
  let include_back : Bool := app.current_dir != app.home_dir
  let current_dir_count := cache app.current_dir
  let jobs0 : List (Fin n) := if current_dir_count.isNone then [app.current_dir] else []
  -- The `if include_back` block builds the parent row and submits the parent
  -- job in one pass; row and job are bound separately here.
  let backItems : List (DirEntry n) :=
    if include_back then
      match fs.parent app.current_dir with
      | some par => [{ name := backLabel, path := par, is_dir := true, file_count := cache par }]
      | none => []
    else []
  let jobs1 : List (Fin n) :=
    if include_back then
      match fs.parent app.current_dir with
      | some par => if (cache par).isNone then [par] else []
      | none => []
    else []
  let rawE : Except Unit (List (RawEntry n)) :=
    match fs.readDir app.current_dir with
    | some es => collectEntries es
    | none => .ok []
  match rawE with
  | .error e => .error e
  | .ok raw =>
    let items := backItems ++ raw.map (childEntry fs cache)
    let jobs2 :=
      (items.filter (fun it => it.is_dir && it.file_count.isNone)).map (fun it => it.path)
    .ok ({ app with
            current_dir_count := current_dir_count
            items := applySort include_back items
            selected := some previous_selection },
          jobs0 ++ jobs1 ++ jobs2)

/-- The `Action::EnterDirectory(index)` handler of the main loop (`main.rs`
lines 550-563): an in-range index naming a directory row replaces
`current_dir` and refreshes; anything else does nothing. -/
def enter {n : ℕ} (fs : FS n) (cache : Fin n → Option ℕ) (app : App n) (index : ℕ) :
    Except Unit (App n × List (Fin n)) :=
  if h : index < app.items.length then
    if (app.items.get ⟨index, h⟩).is_dir then
      refresh_items fs cache { app with current_dir := (app.items.get ⟨index, h⟩).path }
    else .ok (app, [])
  else .ok (app, [])

/-- Rust `usize` subtraction as a debug build evaluates it: `a - b` panics
(modelled `.error ()`) when `b > a` instead of wrapping or truncating. -/
def checkedSub (a b : ℕ) : Except Unit ℕ :=
  if b ≤ a then .ok (a - b) else .error ()

/-- `App::next`: the new selected index, `.error ()` when the evaluation of
`self.items.len() - 1` underflows. -/
def next {n : ℕ} (app : App n) : Except Unit ℕ :=
  match app.selected with
  | some i =>
      match checkedSub app.items.length 1 with
      | .error e => .error e
      | .ok last => .ok (if i ≥ last then 0 else i + 1)
  | none => .ok 0

/-- `App::previous`: the new selected index, `.error ()` when the evaluation of
`self.items.len() - 1` underflows. -/
def previous {n : ℕ} (app : App n) : Except Unit ℕ :=
  match app.selected with
  | some i => if i = 0 then checkedSub app.items.length 1 else .ok (i - 1)
  | none => checkedSub app.items.length 1

/-- The `App` built by `App::new(start_dir)` just before its initial
`refresh_items` call: `current_dir = home_dir = start_dir`, no count, empty
listing, default (empty) table selection. -/
def initApp {n : ℕ} (home : Fin n) : App n :=
  { current_dir := home
    home_dir := home
    current_dir_count := none
    items := []
    selected := none }

/-- `d` is `home` itself or a descendant of `home`: its parent chain reaches
`home`. -/
inductive IsDesc {n : ℕ} (fs : FS n) (home : Fin n) : Fin n → Prop where
  | refl : IsDesc fs home home
  | step : ∀ {p c : Fin n}, IsDesc fs home p → fs.parent c = some p → IsDesc fs home c

/-- The app states reachable in a session that starts at `home`: the state
after the initial refresh of `App::new`, and closure under the navigation
operations — `enter` on any index (covering keyboard and mouse activation) and
the go-home key, each against an arbitrary cache snapshot. -/
inductive AppReach {n : ℕ} (fs : FS n) (home : Fin n) : App n → Prop where
  | init : ∀ (cache : Fin n → Option ℕ) (a : App n) (j : List (Fin n)),
      refresh_items fs cache (initApp home) = .ok (a, j) → AppReach fs home a
  | enterStep : ∀ (cache : Fin n → Option ℕ) (a : App n) (k : ℕ) (a' : App n)
      (j : List (Fin n)), AppReach fs home a → enter fs cache a k = .ok (a', j) →
      AppReach fs home a'
  | homeStep : ∀ (cache : Fin n → Option ℕ) (a a' : App n) (j : List (Fin n)),
      AppReach fs home a →
      refresh_items fs cache { a with current_dir := a.home_dir } = .ok (a', j) →
      AppReach fs home a'

theorem collectEntries_error {n : ℕ} (es : List (Option (RawEntry n))) (h : none ∈ es) :
    collectEntries es = .error () := by
  induction es with
  | nil => simp at h
  | cons e rest ih =>
      rcases e with _ | r
      · rfl
      · rcases List.mem_cons.mp h with h' | h'
        · exact absurd h' (by simp)
        · rw [collectEntries, ih h']
          rfl

theorem collectEntries_ok {n : ℕ} (es : List (Option (RawEntry n))) (h : none ∉ es) :
    collectEntries es = .ok (es.filterMap id) := by
  induction es with
  | nil => rfl
  | cons e rest ih =>
      rcases e with _ | r
      · exact absurd (List.mem_cons_self _ _) h
      · rw [collectEntries, ih (fun hm => h (List.mem_cons_of_mem _ hm))]
        simp [List.filterMap_cons, Except.map]

theorem collectEntries_ok_inv {n : ℕ} {es : List (Option (RawEntry n))}
    {raw : List (RawEntry n)} (h : collectEntries es = .ok raw) :
    none ∉ es ∧ raw = es.filterMap id := by
  by_cases hm : none ∈ es
  · rw [collectEntries_error es hm] at h
    exact absurd h (by simp)
  · rw [collectEntries_ok es hm] at h
    exact ⟨hm, by simpa using h.symm⟩

theorem applySort_false {n : ℕ} (l : List (DirEntry n)) :
    applySort false l = sortEntries l := by
  unfold applySort
  simp

theorem applySort_true_cons {n : ℕ} (x : DirEntry n) (xs : List (DirEntry n)) :
    applySort true (x :: xs) = x :: sortEntries xs := by
  unfold applySort
  rcases xs with _ | ⟨y, ys⟩
  · simp [sortEntries, List.insertionSort, List.orderedInsert]
  · simp

theorem mem_applySort {n : ℕ} {b : Bool} {l : List (DirEntry n)} {e : DirEntry n}
    (h : e ∈ applySort b l) : e ∈ l := by
  unfold applySort at h
  split at h
  · split at h
    · simp at h
    · rcases List.mem_cons.mp h with rfl | h
      · exact List.mem_cons_self _ _
      · exact List.mem_cons_of_mem _
          ((List.perm_insertionSort entryLe _).mem_iff.mp h)
  · exact (List.perm_insertionSort entryLe l).mem_iff.mp h

/-- The parent ("back") rows a refresh of `app` prepends: one row when not at
home and the parent exists, none otherwise. -/
def backItemsOf {n : ℕ} (fs : FS n) (cache : Fin n → Option ℕ) (app : App n) :
    List (DirEntry n) :=
  if (app.current_dir != app.home_dir : Bool) then
    match fs.parent app.current_dir with
    | some par => [(⟨backLabel, par, true, cache par⟩ : DirEntry n)]
    | none => []
  else []

/-- The jobs the parent dispatch site of a refresh of `app` submits. -/
def parentJobsOf {n : ℕ} (fs : FS n) (cache : Fin n → Option ℕ) (app : App n) :
    List (Fin n) :=
  if (app.current_dir != app.home_dir : Bool) then
    match fs.parent app.current_dir with
    | some par => if (cache par).isNone then [par] else []
    | none => []
  else []

theorem refresh_items_eq {n : ℕ} (fs : FS n) (cache : Fin n → Option ℕ) (app : App n)
    (raw : List (RawEntry n))
    (hE : (match fs.readDir app.current_dir with
          | some es => collectEntries es
          | none => .ok []) = .ok raw) :
    refresh_items fs cache app =
      .ok ({ app with
              current_dir_count := cache app.current_dir,
              items := applySort (app.current_dir != app.home_dir)
                (backItemsOf fs cache app ++ raw.map (childEntry fs cache)),
              selected := some (app.selected.getD 0) },
        (if (cache app.current_dir).isNone then [app.current_dir] else []) ++
          parentJobsOf fs cache app ++
          (((backItemsOf fs cache app ++ raw.map (childEntry fs cache)).filter
            (fun it => it.is_dir && it.file_count.isNone)).map (fun it => it.path))) := by
  unfold refresh_items backItemsOf parentJobsOf
  rw [hE]

theorem refresh_items_error_intro {n : ℕ} (fs : FS n) (cache : Fin n → Option ℕ)
    (app : App n)
    (h : (match fs.readDir app.current_dir with
          | some es => collectEntries es
          | none => .ok []) = .error ()) :
    refresh_items fs cache app = .error () := by
  unfold refresh_items
  rw [h]

theorem refresh_items_ok_elim {n : ℕ} {fs : FS n} {cache : Fin n → Option ℕ}
    {app a' : App n} {jobs : List (Fin n)}
    (h : refresh_items fs cache app = .ok (a', jobs)) :
    ∃ raw : List (RawEntry n),
      (match fs.readDir app.current_dir with
        | some es => collectEntries es
        | none => .ok []) = .ok raw ∧
      a' = { app with
              current_dir_count := cache app.current_dir,
              items := applySort (app.current_dir != app.home_dir)
                (backItemsOf fs cache app ++ raw.map (childEntry fs cache)),
              selected := some (app.selected.getD 0) } ∧
      jobs = (if (cache app.current_dir).isNone then [app.current_dir] else []) ++
        parentJobsOf fs cache app ++
        (((backItemsOf fs cache app ++ raw.map (childEntry fs cache)).filter
          (fun it => it.is_dir && it.file_count.isNone)).map (fun it => it.path)) := by
  rcases hE : (match fs.readDir app.current_dir with
      | some es => collectEntries es
      | none => Except.ok []) with e | raw
  · cases e
    rw [refresh_items_error_intro fs cache app hE] at h
    exact Except.noConfusion h
  · rw [refresh_items_eq fs cache app raw hE] at h
    injection h with hpair
    exact ⟨raw, hE, congrArg Prod.fst hpair.symm, congrArg Prod.snd hpair.symm⟩

theorem refresh_items_ok_intro {n : ℕ} (fs : FS n) (cache : Fin n → Option ℕ)
    (app : App n) (raw : List (RawEntry n))
    (h : (match fs.readDir app.current_dir with
          | some es => collectEntries es
          | none => .ok []) = .ok raw) :
    ∃ r, refresh_items fs cache app = .ok r :=
  ⟨_, refresh_items_eq fs cache app raw h⟩

/-- A one-path filesystem whose directory read succeeds but whose single entry
fails to read. -/
def fsEntryErr : FS 1 :=
  { canonicalize := fun _ => none
    readDir := fun _ => some [none]
    isFile := fun _ => false
    isDir := fun _ => true
    parent := fun _ => none }

/-- A one-path filesystem whose directory read itself fails. -/
def fsDirErr : FS 1 :=
  { canonicalize := fun _ => none
    readDir := fun _ => none
    isFile := fun _ => false
    isDir := fun _ => false
    parent := fun _ => none }

/-- A one-path filesystem with a single readable file entry. -/
def fsOneGood : FS 1 :=
  { canonicalize := fun _ => none
    readDir := fun _ => some [some ⟨0, some "a"⟩]
    isFile := fun _ => true
    isDir := fun _ => false
    parent := fun _ => none }

/-- A two-path filesystem: path 0 is a directory with one file child, path 1. -/
def fsOneChild : FS 2 :=
  { canonicalize := fun _ => none
    readDir := fun d => if d = 0 then some [some ⟨1, some "a"⟩] else none
    isFile := fun p => p == 1
    isDir := fun p => p == 0
    parent := fun p => if p = 1 then some 0 else none }

/-- A two-path filesystem where path 1 is an empty subdirectory of path 0. -/
def fsPar : FS 2 :=
  { canonicalize := fun _ => none
    readDir := fun d => if d = 1 then some [] else none
    isFile := fun _ => false
    isDir := fun _ => false
    parent := fun p => if p = 1 then some 0 else none }

/-- C2 counterexample: the claim says `refresh_items` never fails on a
filesystem read failure, but when the current directory is readable and one of
its entries fails to read, the `?` on `collect` propagates the error:
`refresh_items` returns `Err`. -/
theorem C2_counterexample :
    refresh_items fsEntryErr (fun _ => none) (initApp 0) = Except.error () := by rfl

/-- C2 (amended): `count_files` always returns `Ok`, and `refresh_items`
substitutes an empty listing when the current directory itself cannot be read;
but when the directory is readable and reading one of its entries fails,
`refresh_items` propagates the error instead of recovering (and it succeeds
when every entry reads). -/
theorem C2_read_failure_handling :
    (∀ (m : ℕ) (fs : FS m) (d : Fin m), ∃ k, count_files fs d = Except.ok k) ∧
    (∀ (m : ℕ) (fs : FS m) (cache : Fin m → Option ℕ) (app : App m),
      fs.readDir app.current_dir = none → ∃ r, refresh_items fs cache app = Except.ok r) ∧
    (∀ (m : ℕ) (fs : FS m) (cache : Fin m → Option ℕ) (app : App m)
      (es : List (Option (RawEntry m))), fs.readDir app.current_dir = some es →
      none ∈ es → refresh_items fs cache app = Except.error ()) ∧
    (∀ (m : ℕ) (fs : FS m) (cache : Fin m → Option ℕ) (app : App m)
      (es : List (Option (RawEntry m))), fs.readDir app.current_dir = some es →
      none ∉ es → ∃ r, refresh_items fs cache app = Except.ok r) := by
  refine ⟨fun m fs d => ⟨_, rfl⟩, ?_, ?_, ?_⟩
  · intro m fs cache app h
    exact refresh_items_ok_intro fs cache app [] (by rw [h])
  · intro m fs cache app es h hmem
    exact refresh_items_error_intro fs cache app
      (by rw [h]; exact collectEntries_error es hmem)
  · intro m fs cache app es h hmem
    exact refresh_items_ok_intro fs cache app _
      (by rw [h]; exact collectEntries_ok es hmem)

/-- C2 witness: the amended behaviour at concrete filesystems — an `Ok` count,
an `Ok` refresh for an unreadable directory, an `Err` refresh for an unreadable
entry, an `Ok` refresh for a fully readable directory. -/
theorem C2_read_failure_handling_witness :
    (∃ k, count_files fsDirErr 0 = Except.ok k) ∧
    (∃ r, refresh_items fsDirErr (fun _ => none) (initApp 0) = Except.ok r) ∧
    refresh_items fsEntryErr (fun _ => none) (initApp 0) = Except.error () ∧
    (∃ r, refresh_items fsOneGood (fun _ => none) (initApp 0) = Except.ok r) :=
  ⟨C2_read_failure_handling.1 1 fsDirErr 0,
   C2_read_failure_handling.2.1 1 fsDirErr (fun _ => none) (initApp 0) rfl,
   C2_read_failure_handling.2.2.1 1 fsEntryErr (fun _ => none) (initApp 0) [none] rfl
     (by simp),
   C2_read_failure_handling.2.2.2 1 fsOneGood (fun _ => none) (initApp 0)
     [some ⟨0, some "a"⟩] rfl (by simp)⟩

/-- C6 counterexample: the claim says the restored cursor is clamped to the new
listing's bounds; here a refresh at home with stale selection 3 produces a
non-empty listing of length 1 while the selection stays at index 3 — not a
valid index, so no clamping happens. -/
theorem C6_counterexample :
    (refresh_items fsOneChild (fun _ => none) (App.mk 0 0 none [] (some 3))).map
      (fun r => (r.1.selected, r.1.items.length)) = Except.ok (some 3, 1) := by rfl

/-- C6 (amended): across every successful refresh the cursor is preserved by
index — the previous index, defaulting to 0 when nothing was selected — but it
is not clamped to the bounds of the new listing. -/
theorem C6_selection_preserved {n : ℕ} (fs : FS n) (cache : Fin n → Option ℕ)
    (app a' : App n) (jobs : List (Fin n))
    (h : refresh_items fs cache app = Except.ok (a', jobs)) :
    a'.selected = some (app.selected.getD 0) := by
  obtain ⟨raw, hE, rfl, -⟩ := refresh_items_ok_elim h
  rfl

/-- C6 witness: the preserved (unclamped) index after a concrete refresh. -/
theorem C6_selection_preserved_witness :
    (App.mk (0 : Fin 1) 0 none [] (some 3)).selected = some 3 :=
  C6_selection_preserved fsDirErr (fun _ => none) (App.mk 0 0 none [] (some 3))
    (App.mk 0 0 none [] (some 3)) [0] (by rfl)

/-- C7: the sort policy is idempotent — re-sorting a listing that is already
ordered per the policy (unchanged counts) returns it unchanged, both for the
whole-listing sort and for the pinned-first-row sort. -/
theorem C7_sort_idempotent :
    (∀ (m : ℕ) (l : List (DirEntry m)), l.Pairwise specLe →
      sortEntries l = l ∧ applySort false l = l) ∧
    (∀ (m : ℕ) (x : DirEntry m) (l : List (DirEntry m)), l.Pairwise specLe →
      applySort true (x :: l) = x :: l) := by
  constructor
  · intro m l h
    have hs := sortEntries_of_sorted l h
    exact ⟨hs, by rw [applySort_false]; exact hs⟩
  · intro m x l h
    rw [applySort_true_cons, sortEntries_of_sorted l h]

/-- C7 witness: re-sorting the spec's own already-sorted example listing
(C dir 10, A dir 5, B dir 5, Z dir unknown, d.txt file) leaves it unchanged. -/
theorem C7_sort_idempotent_witness :
    sortEntries [(⟨"C", 0, true, some 10⟩ : DirEntry 1), ⟨"A", 0, true, some 5⟩,
        ⟨"Z", 0, true, none⟩, ⟨"d.txt", 0, false, none⟩] =
      [⟨"C", 0, true, some 10⟩, ⟨"A", 0, true, some 5⟩,
        ⟨"Z", 0, true, none⟩, ⟨"d.txt", 0, false, none⟩] ∧
    applySort true ((⟨"..", 0, true, none⟩ : DirEntry 1) ::
        [⟨"A", 0, true, some 5⟩, ⟨"b", 0, false, none⟩]) =
      ⟨"..", 0, true, none⟩ :: [⟨"A", 0, true, some 5⟩, ⟨"b", 0, false, none⟩] :=
  ⟨(C7_sort_idempotent.1 1 _ (by decide)).1, C7_sort_idempotent.2 1 _ _ (by decide)⟩

/-- C8: `enter(index)` with an in-range index naming a directory row sets
`current_dir` to that row's path and triggers `refresh_items`; on a file row or
an out-of-range index it is a no-op that returns `Ok` and changes nothing. -/
theorem C8_enter_behavior {n : ℕ} (fs : FS n) (cache : Fin n → Option ℕ) (app : App n)
    (k : ℕ) :
    (∀ (h : k < app.items.length), (app.items.get ⟨k, h⟩).is_dir = true →
      enter fs cache app k =
        refresh_items fs cache { app with current_dir := (app.items.get ⟨k, h⟩).path }) ∧
    (∀ (h : k < app.items.length), (app.items.get ⟨k, h⟩).is_dir = false →
      enter fs cache app k = Except.ok (app, [])) ∧
    (app.items.length ≤ k → enter fs cache app k = Except.ok (app, [])) := by
  refine ⟨?_, ?_, ?_⟩
  · intro h hd
    unfold enter
    rw [dif_pos h, if_pos hd]
  · intro h hd
    unfold enter
    rw [dif_pos h, if_neg (by rw [hd]; exact Bool.false_ne_true)]
  · intro h
    unfold enter
    rw [dif_neg (not_lt.mpr h)]

/-- C8 witness: `enter` at a concrete two-row listing — entering the directory
row refreshes into it, entering the file row and an out-of-range index are
`Ok` no-ops. -/
theorem C8_enter_behavior_witness :
    enter fsDirErr (fun _ => none)
        (App.mk 0 0 none [⟨"d", 0, true, none⟩, ⟨"f", 0, false, none⟩] none) 0 =
      refresh_items fsDirErr (fun _ => none)
        (App.mk 0 0 none [⟨"d", 0, true, none⟩, ⟨"f", 0, false, none⟩] none) ∧
    enter fsDirErr (fun _ => none)
        (App.mk 0 0 none [⟨"d", 0, true, none⟩, ⟨"f", 0, false, none⟩] none) 1 =
      Except.ok (App.mk 0 0 none [⟨"d", 0, true, none⟩, ⟨"f", 0, false, none⟩] none, []) ∧
    enter fsDirErr (fun _ => none)
        (App.mk 0 0 none [⟨"d", 0, true, none⟩, ⟨"f", 0, false, none⟩] none) 5 =
      Except.ok (App.mk 0 0 none [⟨"d", 0, true, none⟩, ⟨"f", 0, false, none⟩] none, []) :=
  ⟨(C8_enter_behavior fsDirErr (fun _ => none) _ 0).1 (by decide) rfl,
   (C8_enter_behavior fsDirErr (fun _ => none) _ 1).2.1 (by decide) rfl,
   (C8_enter_behavior fsDirErr (fun _ => none) _ 5).2.2 (by decide)⟩

/-- C10 counterexample: the claim says `previous` with any existing selection
underflows on an empty listing; with selection at index 1 it takes the `i - 1`
branch instead, never evaluating `len - 1`: it returns index 0, no error. -/
theorem C10_counterexample :
    previous (App.mk (0 : Fin 1) 0 none [] (some 1)) = Except.ok 0 ∧
      previous (App.mk (0 : Fin 1) 0 none [] (some 1)) ≠ Except.error () := by
  refine ⟨rfl, fun h => ?_⟩
  exact Except.noConfusion
    ((show Except.ok (0 : ℕ) = previous (App.mk (0 : Fin 1) 0 none [] (some 1)) from
      rfl).trans h)

/-- C10 (amended): on an empty listing, `previous` with no selection or with
selection 0 underflows (`len - 1` with `len = 0`), and `next` with any
selection underflows; but `previous` with a selection `i > 0` safely returns
`i - 1`, and `next` with no selection returns 0. -/
theorem C10_empty_listing_underflow :
    (∀ (m : ℕ) (app : App m), app.items = [] → app.selected = none →
      previous app = Except.error ()) ∧
    (∀ (m : ℕ) (app : App m) (i : ℕ), app.items = [] → app.selected = some i →
      next app = Except.error ()) ∧
    (∀ (m : ℕ) (app : App m), app.items = [] → app.selected = some 0 →
      previous app = Except.error ()) ∧
    (∀ (m : ℕ) (app : App m) (i : ℕ), app.items = [] → app.selected = some i → 0 < i →
      previous app = Except.ok (i - 1)) ∧
    (∀ (m : ℕ) (app : App m), app.items = [] → app.selected = none →
      next app = Except.ok 0) := by
  refine ⟨?_, ?_, ?_, ?_, ?_⟩
  · intro m app hi hs
    unfold previous
    rw [hs, hi]
    rfl
  · intro m app i hi hs
    unfold next
    rw [hs, hi]
    rfl
  · intro m app hi hs
    unfold previous
    rw [hs, hi]
    rfl
  · intro m app i hi hs hpos
    unfold previous
    rw [hs]
    exact if_neg (by omega)
  · intro m app hi hs
    unfold next
    rw [hs]

/-- C10 witness: the amended behaviour on concrete empty-listing states. -/
theorem C10_empty_listing_underflow_witness :
    previous (App.mk (0 : Fin 1) 0 none [] none) = Except.error () ∧
    next (App.mk (0 : Fin 1) 0 none [] (some 2)) = Except.error () ∧
    previous (App.mk (0 : Fin 1) 0 none [] (some 0)) = Except.error () ∧
    previous (App.mk (0 : Fin 1) 0 none [] (some 2)) = Except.ok 1 ∧
    next (App.mk (0 : Fin 1) 0 none [] none) = Except.ok 0 :=
  ⟨C10_empty_listing_underflow.1 1 _ rfl rfl,
   C10_empty_listing_underflow.2.1 1 _ 2 rfl rfl,
   C10_empty_listing_underflow.2.2.1 1 _ rfl rfl,
   C10_empty_listing_underflow.2.2.2.1 1 _ 2 rfl rfl (by decide),
   C10_empty_listing_underflow.2.2.2.2 1 _ rfl rfl⟩

/-- C4: after every successful `refresh_items` — and after every count-update
re-sort, which runs the identical sort block — the mutable portion of the
listing is ordered by the spec's policy (`specLe`): the whole listing when at
home; everything after the synthesized parent entry otherwise, with the parent
entry pinned at index 0 and excluded from sorting. -/
theorem C4_listing_sorted :
    (∀ (m : ℕ) (fs : FS m) (cache : Fin m → Option ℕ) (app a' : App m)
      (jobs : List (Fin m)), refresh_items fs cache app = Except.ok (a', jobs) →
      app.current_dir = app.home_dir → a'.items.Pairwise specLe) ∧
    (∀ (m : ℕ) (fs : FS m) (cache : Fin m → Option ℕ) (app a' : App m)
      (jobs : List (Fin m)) (par : Fin m),
      refresh_items fs cache app = Except.ok (a', jobs) →
      app.current_dir ≠ app.home_dir → fs.parent app.current_dir = some par →
      a'.items.head? = some ⟨backLabel, par, true, cache par⟩ ∧
        a'.items.tail.Pairwise specLe) ∧
    (∀ (m : ℕ) (l : List (DirEntry m)), (applySort false l).Pairwise specLe) ∧
    (∀ (m : ℕ) (x : DirEntry m) (l : List (DirEntry m)),
      (applySort true (x :: l)).head? = some x ∧
        (applySort true (x :: l)).tail.Pairwise specLe) := by
  have hsort3 : ∀ (m : ℕ) (l : List (DirEntry m)), (applySort false l).Pairwise specLe := by
    intro m l
    rw [applySort_false]
    exact sortEntries_sorted l
  have hsort4 : ∀ (m : ℕ) (x : DirEntry m) (l : List (DirEntry m)),
      (applySort true (x :: l)).head? = some x ∧
        (applySort true (x :: l)).tail.Pairwise specLe := by
    intro m x l
    rw [applySort_true_cons]
    exact ⟨rfl, sortEntries_sorted l⟩
  refine ⟨?_, ?_, hsort3, hsort4⟩
  · intro m fs cache app a' jobs h heq
    obtain ⟨raw, hE, rfl, -⟩ := refresh_items_ok_elim h
    have hb : (app.current_dir != app.home_dir) = false := by simp [heq]
    show (applySort (app.current_dir != app.home_dir)
      (backItemsOf fs cache app ++ raw.map (childEntry fs cache))).Pairwise specLe
    rw [hb]
    exact hsort3 m _
  · intro m fs cache app a' jobs par h hne hpar
    obtain ⟨raw, hE, rfl, -⟩ := refresh_items_ok_elim h
    have hb : (app.current_dir != app.home_dir) = true := bne_iff_ne.mpr hne
    have hbi : backItemsOf fs cache app = [⟨backLabel, par, true, cache par⟩] := by
      unfold backItemsOf
      rw [hb, if_pos rfl, hpar]
    show ((applySort (app.current_dir != app.home_dir)
        (backItemsOf fs cache app ++ raw.map (childEntry fs cache))).head? =
        some ⟨backLabel, par, true, cache par⟩) ∧
      (applySort (app.current_dir != app.home_dir)
        (backItemsOf fs cache app ++ raw.map (childEntry fs cache))).tail.Pairwise specLe
    rw [hb, hbi, List.singleton_append, applySort_true_cons]
    exact ⟨rfl, sortEntries_sorted _⟩

/-- C4 witness: the sorted-listing shape at two concrete refreshes — one at
home (whole listing sorted), one below home (parent row pinned first, tail
sorted). -/
theorem C4_listing_sorted_witness :
    (App.mk (0 : Fin 1) 0 none [⟨"a", 0, false, none⟩] (some 0)).items.Pairwise specLe ∧
    ((App.mk (1 : Fin 2) 0 none [⟨backLabel, 0, true, none⟩] (some 0)).items.head? =
        some ⟨backLabel, 0, true, none⟩ ∧
      (App.mk (1 : Fin 2) 0 none
        [⟨backLabel, 0, true, none⟩] (some 0)).items.tail.Pairwise specLe) :=
  ⟨C4_listing_sorted.1 1 fsOneGood (fun _ => none) (initApp 0) _ [0] (by rfl) rfl,
   C4_listing_sorted.2.1 2 fsPar (fun _ => none) (App.mk 1 0 none [] none) _ [1, 0, 0] 0
     (by rfl) (by decide) rfl⟩

/-- C5 counterexample: the claim says one invocation of `refresh_items` never
submits two jobs for the same path; refreshing an empty subdirectory with a
cold cache submits the parent path twice — once at the parent dispatch site
and once from the per-item loop over the freshly built listing, whose parent
row still has no count. -/
theorem C5_counterexample :
    (refresh_items fsPar (fun _ => none) (App.mk 1 0 none [] none)).map
      (fun r => r.2.count (0 : Fin 2)) = Except.ok 2 := by rfl

/-- C5 (amended): within one successful `refresh_items` whose listing has no
duplicate child paths and lists neither the current directory nor the parent
as a child, every path other than the parent's is submitted at most once; the
parent path itself, on a cache miss, is submitted exactly twice — by the
parent dispatch site and again by the per-item loop, which sees the parent
row's still-missing count. -/
theorem C5_refresh_job_duplication {n : ℕ} (fs : FS n) (cache : Fin n → Option ℕ)
    (app a' : App n) (jobs : List (Fin n)) (es : List (Option (RawEntry n)))
    (h : refresh_items fs cache app = Except.ok (a', jobs))
    (hrd : fs.readDir app.current_dir = some es)
    (hnodup : ((es.filterMap id).map (fun r => r.path)).Nodup)
    (hcd : app.current_dir ∉ (es.filterMap id).map (fun r => r.path)) :
    (∀ q : Fin n, (∀ par, fs.parent app.current_dir = some par → q ≠ par) →
      jobs.count q ≤ 1) ∧
    (∀ par : Fin n, app.current_dir ≠ app.home_dir →
      fs.parent app.current_dir = some par →
      par ∉ (es.filterMap id).map (fun r => r.path) → par ≠ app.current_dir →
      cache par = none → jobs.count par = 2) := by
  obtain ⟨raw, hE, -, rfl⟩ := refresh_items_ok_elim h
  rw [hrd] at hE
  obtain ⟨-, rfl⟩ := collectEntries_ok_inv hE
  have hsplit : ∀ q : Fin n,
      ((if (cache app.current_dir).isNone then [app.current_dir] else []) ++
        parentJobsOf fs cache app ++
        (((backItemsOf fs cache app ++
            (es.filterMap id).map (childEntry fs cache)).filter
          (fun it => it.is_dir && it.file_count.isNone)).map (fun it => it.path))).count q =
      ((if (cache app.current_dir).isNone then [app.current_dir] else []).count q) +
      ((parentJobsOf fs cache app).count q) +
      ((((backItemsOf fs cache app).filter
          (fun it => it.is_dir && it.file_count.isNone)).map (fun it => it.path)).count q) +
      (((((es.filterMap id).map (childEntry fs cache)).filter
          (fun it => it.is_dir && it.file_count.isNone)).map (fun it => it.path)).count q) := by
    intro q
    simp only [List.filter_append, List.map_append, List.count_append]
    omega
  have hD_le : ∀ q : Fin n,
      (((((es.filterMap id).map (childEntry fs cache)).filter
        (fun it => it.is_dir && it.file_count.isNone)).map (fun it => it.path)).count q) ≤
        (((es.filterMap id).map (fun r => r.path)).count q) := by
    intro q
    have h1 := ((List.filter_sublist
      ((es.filterMap id).map (childEntry fs cache)) (p := fun it =>
        it.is_dir && it.file_count.isNone)).map (fun it => it.path)).count_le q
    calc (((((es.filterMap id).map (childEntry fs cache)).filter
          (fun it => it.is_dir && it.file_count.isNone)).map (fun it => it.path)).count q) ≤
        ((((es.filterMap id).map (childEntry fs cache)).map (fun it => it.path)).count q) :=
          h1
      _ = (((es.filterMap id).map (fun r => r.path)).count q) := by
          rw [List.map_map]
          rfl
  have hA_le : ∀ q : Fin n,
      ((if (cache app.current_dir).isNone then [app.current_dir] else []).count q) ≤ 1 := by
    intro q
    split
    · simp [List.count_cons]
      split <;> omega
    · simp
  have hA_zero : ∀ q : Fin n, q ≠ app.current_dir →
      ((if (cache app.current_dir).isNone then [app.current_dir] else []).count q) = 0 := by
    intro q hq
    split
    · exact List.count_eq_zero.mpr (by simp [hq])
    · simp
  have hB_zero : ∀ q : Fin n, (∀ par, fs.parent app.current_dir = some par → q ≠ par) →
      ((parentJobsOf fs cache app).count q) = 0 := by
    intro q hq
    unfold parentJobsOf
    split
    · rcases hp : fs.parent app.current_dir with _ | par
      · simp
      · show ((if (cache par).isNone then [par] else [] : List (Fin n)).count q) = 0
        split
        · exact List.count_eq_zero.mpr (by simp [hq par hp])
        · simp
    · simp
  have hC_zero : ∀ q : Fin n, (∀ par, fs.parent app.current_dir = some par → q ≠ par) →
      ((((backItemsOf fs cache app).filter
        (fun it => it.is_dir && it.file_count.isNone)).map (fun it => it.path)).count q) = 0 := by
    intro q hq
    unfold backItemsOf
    split
    · rcases hp : fs.parent app.current_dir with _ | par
      · simp
      · refine List.count_eq_zero.mpr ?_
        intro hmem
        rcases List.mem_map.mp hmem with ⟨it, hit, hpath⟩
        have := List.mem_filter.mp hit
        have hitmem : it ∈ [(⟨backLabel, par, true, cache par⟩ : DirEntry n)] := this.1
        obtain rfl : it = ⟨backLabel, par, true, cache par⟩ := by simpa using hitmem
        exact hq par hp (by simpa using hpath.symm)
    · simp
  constructor
  · intro q hq
    rw [hsplit q]
    have hB := hB_zero q hq
    have hC := hC_zero q hq
    by_cases hqcd : q = app.current_dir
    · have hD : (((((es.filterMap id).map (childEntry fs cache)).filter
          (fun it => it.is_dir && it.file_count.isNone)).map (fun it => it.path)).count q) = 0 := by
        have h0 : (((es.filterMap id).map (fun r => r.path)).count q) = 0 :=
          List.count_eq_zero.mpr (hqcd ▸ hcd)
        have := hD_le q
        omega
      have := hA_le q
      omega
    · have hA := hA_zero q hqcd
      have hD1 : (((es.filterMap id).map (fun r => r.path)).count q) ≤ 1 :=
        List.nodup_iff_count_le_one.mp hnodup q
      have := hD_le q
      omega
  · intro par hne hpar hparkids hparcd hmiss
    rw [hsplit par]
    have hb : (app.current_dir != app.home_dir) = true := bne_iff_ne.mpr hne
    have hA := hA_zero par hparcd
    have hB : ((parentJobsOf fs cache app).count par) = 1 := by
      unfold parentJobsOf
      rw [hb, if_pos rfl, hpar]
      show ((if (cache par).isNone then [par] else [] : List (Fin n)).count par) = 1
      rw [if_pos (by rw [hmiss]; rfl)]
      simp
    have hC : ((((backItemsOf fs cache app).filter
        (fun it => it.is_dir && it.file_count.isNone)).map (fun it => it.path)).count par) = 1 := by
      unfold backItemsOf
      rw [hb, if_pos rfl, hpar]
      show (((([(⟨backLabel, par, true, cache par⟩ : DirEntry n)]).filter
        (fun it => it.is_dir && it.file_count.isNone)).map (fun it => it.path)).count par) = 1
      have hpfilter : ((([(⟨backLabel, par, true, cache par⟩ : DirEntry n)]).filter
          (fun it => it.is_dir && it.file_count.isNone))) =
          [(⟨backLabel, par, true, cache par⟩ : DirEntry n)] := by
        rw [List.filter_cons]
        rw [if_pos (by rw [hmiss]; rfl)]
        rfl
      rw [hpfilter]
      simp
    have hD : (((((es.filterMap id).map (childEntry fs cache)).filter
        (fun it => it.is_dir && it.file_count.isNone)).map (fun it => it.path)).count par) = 0 := by
      have h0 : (((es.filterMap id).map (fun r => r.path)).count par) = 0 :=
        List.count_eq_zero.mpr hparkids
      have := hD_le par
      omega
    omega

/-- C5 witness: the amended bound at a concrete refresh of an empty
subdirectory with a cold cache — the submitted jobs are `[1, 0, 0]`: the
current directory once, and the missing parent 0 twice. -/
theorem C5_refresh_job_duplication_witness :
    (([1, 0, 0] : List (Fin 2)).count 1 ≤ 1) ∧ (([1, 0, 0] : List (Fin 2)).count 0 = 2) :=
  ⟨(C5_refresh_job_duplication fsPar (fun _ => none) (App.mk 1 0 none [] none)
      (App.mk 1 0 none [⟨backLabel, 0, true, none⟩] (some 0)) [1, 0, 0] []
      (by rfl) rfl (by decide) (by decide)).1 1 (fun par hp => by
        injection hp with h'
        rw [← h']
        decide),
   (C5_refresh_job_duplication fsPar (fun _ => none) (App.mk 1 0 none [] none)
      (App.mk 1 0 none [⟨backLabel, 0, true, none⟩] (some 0)) [1, 0, 0] []
      (by rfl) rfl (by decide) (by decide)).2 0 (by decide) rfl (by decide) (by decide)
      rfl⟩

theorem isDesc_parent {n : ℕ} {fs : FS n} {home d p : Fin n} (hd : IsDesc fs home d)
    (hne : d ≠ home) (hp : fs.parent d = some p) : IsDesc fs home p := by
  cases hd with
  | refl => exact absurd rfl hne
  | step hanc hpar =>
      rw [hp] at hpar
      injection hpar with h'
      exact h' ▸ hanc

theorem refresh_items_preserves_desc {n : ℕ} {fs : FS n} {home : Fin n}
    (hwf : ∀ (d : Fin n) (es : List (Option (RawEntry n))) (r : RawEntry n),
      fs.readDir d = some es → some r ∈ es → fs.parent r.path = some d)
    {cache : Fin n → Option ℕ} {app a' : App n} {jobs : List (Fin n)}
    (hh : app.home_dir = home) (hcd : IsDesc fs home app.current_dir)
    (h : refresh_items fs cache app = Except.ok (a', jobs)) :
    a'.home_dir = home ∧ a'.current_dir = app.current_dir ∧
      ∀ e ∈ a'.items, IsDesc fs home e.path := by
  obtain ⟨raw, hE, rfl, -⟩ := refresh_items_ok_elim h
  refine ⟨hh, rfl, ?_⟩
  intro e he
  have he' : e ∈ backItemsOf fs cache app ++ raw.map (childEntry fs cache) :=
    mem_applySort he
  rcases List.mem_append.mp he' with hb | hc
  · unfold backItemsOf at hb
    by_cases hib : (app.current_dir != app.home_dir) = true
    · rw [if_pos hib] at hb
      rcases hpar : fs.parent app.current_dir with _ | par
      · rw [hpar] at hb
        simp at hb
      · rw [hpar] at hb
        obtain rfl : e = ⟨backLabel, par, true, cache par⟩ := by simpa using hb
        have hne : app.current_dir ≠ home := hh ▸ bne_iff_ne.mp hib
        exact isDesc_parent hcd hne hpar
    · rw [if_neg hib] at hb
      simp at hb
  · obtain ⟨r, hr, rfl⟩ := List.mem_map.mp hc
    rcases hrd : fs.readDir app.current_dir with _ | es
    · rw [hrd] at hE
      obtain rfl : raw = [] := by simpa using hE.symm
      simp at hr
    · rw [hrd] at hE
      obtain ⟨-, rfl⟩ := collectEntries_ok_inv hE
      have hmem : some r ∈ es := by
        obtain ⟨o, ho, hid⟩ := List.mem_filterMap.mp hr
        cases o with
        | none => exact absurd hid (by simp)
        | some r' =>
            obtain rfl : r' = r := by simpa using hid
            exact ho
      exact IsDesc.step hcd (hwf app.current_dir es r hrd hmem)

theorem appReach_desc {n : ℕ} {fs : FS n} {home : Fin n}
    (hwf : ∀ (d : Fin n) (es : List (Option (RawEntry n))) (r : RawEntry n),
      fs.readDir d = some es → some r ∈ es → fs.parent r.path = some d) :
    ∀ a : App n, AppReach fs home a →
      a.home_dir = home ∧ IsDesc fs home a.current_dir ∧
        ∀ e ∈ a.items, IsDesc fs home e.path := by
  intro a h
  induction h with
  | init cache a j hr =>
      obtain ⟨h1, h2, h3⟩ := refresh_items_preserves_desc hwf rfl IsDesc.refl hr
      exact ⟨h1, h2 ▸ IsDesc.refl, h3⟩
  | enterStep cache a k a' j hreach hent ih =>
      obtain ⟨ih1, ih2, ih3⟩ := ih
      unfold enter at hent
      split at hent
      · rename_i hlt
        split at hent
        · rename_i hdir
          have hpath : IsDesc fs home (a.items.get ⟨k, hlt⟩).path :=
            ih3 _ (a.items.get_mem _ _)
          obtain ⟨h1, h2, h3⟩ := refresh_items_preserves_desc hwf
            (show ({ a with current_dir := (a.items.get ⟨k, hlt⟩).path } : App n).home_dir =
              home from ih1)
            (show IsDesc fs home
                ({ a with current_dir := (a.items.get ⟨k, hlt⟩).path } : App n).current_dir
              from hpath)
            hent
          refine ⟨h1, ?_, h3⟩
          rw [h2]
          exact hpath
        · obtain ⟨rfl, -⟩ : a = a' ∧ j = [] := by
            have h2 := hent
            simp only [Except.ok.injEq, Prod.mk.injEq] at h2
            exact ⟨h2.1, h2.2.symm⟩
          exact ⟨ih1, ih2, ih3⟩
      · obtain ⟨rfl, -⟩ : a = a' ∧ j = [] := by
          have h2 := hent
          simp only [Except.ok.injEq, Prod.mk.injEq] at h2
          exact ⟨h2.1, h2.2.symm⟩
        exact ⟨ih1, ih2, ih3⟩
  | homeStep cache a a' j hreach hr ih =>
      obtain ⟨ih1, ih2, ih3⟩ := ih
      obtain ⟨h1, h2, h3⟩ := refresh_items_preserves_desc hwf
        (show ({ a with current_dir := a.home_dir } : App n).home_dir = home from ih1)
        (show IsDesc fs home ({ a with current_dir := a.home_dir } : App n).current_dir from
          ih1 ▸ IsDesc.refl)
        hr
      refine ⟨h1, ?_, h3⟩
      rw [h2]
      exact ih1 ▸ IsDesc.refl

/-- C9: in every app state reachable from the initial state via the navigation
operations (`enter` on a listed row — child or synthesized parent — and
return-to-home), `current_dir` is `home_dir` or a descendant of it: the engine
never navigates to a strict ancestor of home, because the parent entry is
synthesized only away from home and children always lie below the directory
listing them. -/
theorem C9_never_above_home {n : ℕ} (fs : FS n) (home : Fin n)
    (hwf : ∀ (d : Fin n) (es : List (Option (RawEntry n))) (r : RawEntry n),
      fs.readDir d = some es → some r ∈ es → fs.parent r.path = some d)
    (a : App n) (h : AppReach fs home a) : IsDesc fs home a.current_dir :=
  (appReach_desc hwf a h).2.1

/-- C9 witness: the invariant at a concrete reachable state — the state
produced by the initial refresh on a one-directory filesystem. -/
theorem C9_never_above_home_witness :
    IsDesc fsDirErr 0 (App.mk (0 : Fin 1) 0 none [] (some 0)).current_dir :=
  C9_never_above_home fsDirErr 0
    (fun d es r hes hr => by
      simp [fsDirErr] at hes)
    (App.mk 0 0 none [] (some 0))
    (AppReach.init (fun _ => none) _ [0] (by rfl))

end FileCounter
